import Mathlib

/-!
Verification of the rkvst simplehash v1 anchor computation
(`rkvst_simplehash/v1.py`): event validation, canonicalization via
bencoding, and SHA-256 accumulation, modelled as executable Lean
definitions, together with theorems about the properties the module is
supposed to have.
-/

set_option maxRecDepth 100000

namespace SimpleHash

/-- Byte strings are lists of byte values (each `< 256` in practice). -/
abbrev Bytes := List Nat

/-- ASCII bytes of a string literal (all keys and statuses here are ASCII,
where UTF-8 bytes coincide with code points). -/
def ascii (s : String) : Bytes := s.data.map Char.toNat

mutual

/-- A Python value as delivered by JSON decoding and fed to `bencodepy`:
text, integer, list, mapping, or a float.  The `float` constructor keeps no
numeric payload because nothing in the program inspects a float's value:
`bencodepy` rejects the type itself. -/
inductive BVal where
  | str (s : Bytes)
  | int (n : Int)
  | list (xs : BList)
  | dict (kvs : BDict)
  | float
deriving DecidableEq

/-- A list of values (the elements of a Python `list`). -/
inductive BList where
  | nil
  | cons (v : BVal) (t : BList)
deriving DecidableEq

/-- An association list: a Python `dict` as its (key, value) items in
insertion order.  A dict built by Python never has duplicate keys. -/
inductive BDict where
  | nil
  | cons (k : Bytes) (v : BVal) (t : BDict)
deriving DecidableEq

end

/-- A raw event as delivered by the service: a Python `dict` from field
name (as its UTF-8 bytes) to value, kept as its items in insertion order.
Lookup of a key finds its unique binding. -/
abbrev RawEvent := List (Bytes × BVal)

/-- ASCII decimal digits of a natural number (`str(n)` in Python). -/
def natDec (n : Nat) : Bytes := (Nat.toDigits 10 n).map Char.toNat

/-- ASCII decimal rendering of an integer (`str(n)`), with `-` for
negatives. -/
def intDec : Int → Bytes
  | Int.ofNat m => natDec m
  | Int.negSucc m => 45 :: natDec (m + 1)

/-- Bencode byte-string encoding: decimal length, `:` (58), raw bytes. -/
def encStr (s : Bytes) : Bytes := natDec s.length ++ 58 :: s

/-- Lexicographic order on byte strings (`<=` on Python `bytes`/`str`,
which sorts dict keys in bencoding). -/
def bytesLe : Bytes → Bytes → Bool
  | [], _ => true
  | _ :: _, [] => false
  | a :: as, b :: bs => if a < b then true else if b < a then false else bytesLe as bs

/-- Insert one (key, encoded-value) pair into a key-sorted list. -/
def insertPair (p : Bytes × Bytes) : List (Bytes × Bytes) → List (Bytes × Bytes)
  | [] => [p]
  | q :: qs => if bytesLe p.1 q.1 then p :: q :: qs else q :: insertPair p qs

/-- Sort (key, encoded-value) pairs by raw key bytes (`ilist.sort()` on a
dict's items in `bencodepy`; stable, and keys are unique in a dict). -/
def sortPairs : List (Bytes × Bytes) → List (Bytes × Bytes)
  | [] => []
  | p :: ps => insertPair p (sortPairs ps)

/-- Concatenate sorted dict items: each key as a bencoded string followed
by the value's already-computed encoding. -/
def catPairs : List (Bytes × Bytes) → Bytes
  | [] => []
  | p :: ps => encStr p.1 ++ p.2 ++ catPairs ps

mutual

/-- `bencodepy.encode`: byte strings are length-prefixed, integers are
`i<decimal>e`, lists are `l<items>e` in order, dicts are `d<items>e` with
items sorted by raw key bytes.  A float (an unsupported type) makes the
whole encoding fail (`BencodeEncodeError`), modelled as `none`.  Values of
a dict are encoded before sorting here; since sorting is by the raw key
only, the emitted bytes are those of `bencodepy`, which sorts first. -/
def bencode : BVal → Option Bytes
  | .str s => some (encStr s)
  | .int n => some (105 :: intDec n ++ [101])
  | .float => none
  | .list xs =>
    match bencodeL xs with
    | none => none
    | some b => some (108 :: b ++ [101])
  | .dict kvs =>
    match bencodeD kvs with
    | none => none
    | some ps => some (100 :: catPairs (sortPairs ps) ++ [101])

/-- Encode the elements of a list value, in order. -/
def bencodeL : BList → Option Bytes
  | .nil => some []
  | .cons v t =>
    match bencode v with
    | none => none
    | some b =>
      match bencodeL t with
      | none => none
      | some bt => some (b ++ bt)

/-- Encode the values of a dict's items, keeping each with its key. -/
def bencodeD : BDict → Option (List (Bytes × Bytes))
  | .nil => some []
  | .cons k v t =>
    match bencode v with
    | none => none
    | some b =>
      match bencodeD t with
      | none => none
      | some pt => some ((k, b) :: pt)

end

/-- A `dict` assembled in Lean-list form, as `BVal` dict items. -/
def toBDict : List (Bytes × BVal) → BDict
  | [] => BDict.nil
  | p :: ps => BDict.cons p.1 p.2 (toBDict ps)

/-- `bencodepy.encode` applied to a dict given as a Lean list of items. -/
def binary_encode (e : List (Bytes × BVal)) : Option Bytes :=
  bencode (BVal.dict (toBDict e))

/-! ## SHA-256 (`hashlib.sha256`)

Machine words are naturals reduced mod `2 ^ 32` explicitly. -/

/-- Truncate to a 32-bit word. -/
def w32 (x : Nat) : Nat := x % 4294967296

/-- Right rotation of a 32-bit word. -/
def rotr (n x : Nat) : Nat := w32 ((x >>> n) ||| (x <<< (32 - n)))

/-- Bitwise complement of a 32-bit word. -/
def not32 (x : Nat) : Nat := x ^^^ 4294967295

/-- SHA-256 `Ch(x,y,z)`. -/
def chF (x y z : Nat) : Nat := (x &&& y) ^^^ (not32 x &&& z)

/-- SHA-256 `Maj(x,y,z)`. -/
def majF (x y z : Nat) : Nat := (x &&& y) ^^^ (x &&& z) ^^^ (y &&& z)

/-- SHA-256 `Σ0`. -/
def bigS0 (x : Nat) : Nat := rotr 2 x ^^^ rotr 13 x ^^^ rotr 22 x

/-- SHA-256 `Σ1`. -/
def bigS1 (x : Nat) : Nat := rotr 6 x ^^^ rotr 11 x ^^^ rotr 25 x

/-- SHA-256 `σ0`. -/
def smallS0 (x : Nat) : Nat := rotr 7 x ^^^ rotr 18 x ^^^ (x >>> 3)

/-- SHA-256 `σ1`. -/
def smallS1 (x : Nat) : Nat := rotr 17 x ^^^ rotr 19 x ^^^ (x >>> 10)

/-- The 64 SHA-256 round constants, in decimal. -/
def sha256K : List Nat :=
  [1116352408, 1899447441, 3049323471, 3921009573, 961987163, 1508970993,
   2453635748, 2870763221, 3624381080, 310598401, 607225278, 1426881987,
   1925078388, 2162078206, 2614888103, 3248222580, 3835390401, 4022224774,
   264347078, 604807628, 770255983, 1249150122, 1555081692, 1996064986,
   2554220882, 2821834349, 2952996808, 3210313671, 3336571891, 3584528711,
   113926993, 338241895, 666307205, 773529912, 1294757372, 1396182291,
   1695183700, 1986661051, 2177026350, 2456956037, 2730485921, 2820302411,
   3259730800, 3345764771, 3516065817, 3600352804, 4094571909, 275423344,
   430227734, 506948616, 659060556, 883997877, 958139571, 1322822218,
   1537002063, 1747873779, 1955562222, 2024104815, 2227730452, 2361852424,
   2428436474, 2756734187, 3204031479, 3329325298]

/-- The eight 32-bit words of SHA-256 chaining state. -/
structure Hash8 where
  a : Nat
  b : Nat
  c : Nat
  d : Nat
  e : Nat
  f : Nat
  g : Nat
  h : Nat
deriving DecidableEq

/-- SHA-256 initial chaining value, in decimal. -/
def sha256H0 : Hash8 :=
  ⟨1779033703, 3144134277, 1013904242, 2773480762,
   1359893119, 2600822924, 528734635, 1541459225⟩

/-- Big-endian 32-bit word from four bytes. -/
def beWord (a b c d : Nat) : Nat := ((a * 256 + b) * 256 + c) * 256 + d

/-- Group bytes into big-endian 32-bit words (length a multiple of 4). -/
def toWords : List Nat → List Nat
  | a :: b :: c :: d :: rest => beWord a b c d :: toWords rest
  | _ => []

/-- One message-schedule extension step on the reversed schedule
(`w[i] = σ1 w[i-2] + w[i-7] + σ0 w[i-15] + w[i-16]`, most recent first). -/
def schedStep (w : List Nat) : List Nat :=
  w32 (smallS1 (w.getD 1 0) + w.getD 6 0 + smallS0 (w.getD 14 0) + w.getD 15 0) :: w

/-- The 64-word message schedule of one 64-byte block. -/
def schedule (block : List Nat) : List Nat :=
  (Nat.repeat schedStep 48 (toWords block).reverse).reverse

/-- One SHA-256 round: fold the working state with `(K_i, W_i)`. -/
def roundStep (s : Hash8) (kw : Nat × Nat) : Hash8 :=
  let t1 := w32 (s.h + bigS1 s.e + chF s.e s.f s.g + kw.1 + kw.2)
  let t2 := w32 (bigS0 s.a + majF s.a s.b s.c)
  ⟨w32 (t1 + t2), s.a, s.b, s.c, w32 (s.d + t1), s.e, s.f, s.g⟩

/-- The SHA-256 compression function on one 64-byte block. -/
def compress (H : Hash8) (block : List Nat) : Hash8 :=
  let s := (sha256K.zip (schedule block)).foldl roundStep H
  ⟨w32 (H.a + s.a), w32 (H.b + s.b), w32 (H.c + s.c), w32 (H.d + s.d),
   w32 (H.e + s.e), w32 (H.f + s.f), w32 (H.g + s.g), w32 (H.h + s.h)⟩

/-- Compress every full 64-byte block off the front of `m`, returning the
new chaining state and the remaining (< 64 bytes when the fuel covers
`m.length`) tail.  Fuel makes the recursion structural, so it reduces. -/
def processGo : Nat → Hash8 → List Nat → Hash8 × List Nat
  | 0, H, m => (H, m)
  | fuel + 1, H, m =>
    if 64 ≤ m.length then processGo fuel (compress H (m.take 64)) (m.drop 64) else (H, m)

/-- Compress every full 64-byte block of `m`. -/
def processBlocks (H : Hash8) (m : List Nat) : Hash8 × List Nat :=
  processGo m.length H m

/-- A streaming `hashlib.sha256` context: chaining state of the blocks
already compressed, the buffered tail not yet forming a block, and the
total byte count seen. -/
structure Sha256Ctx where
  hs : Hash8
  buf : List Nat
  len : Nat
deriving DecidableEq

/-- The fresh context `sha256()`. -/
def sha256Start : Sha256Ctx := ⟨sha256H0, [], 0⟩

/-- `hasher.update(data)`: append to the buffer and compress every full
block. -/
def updateCtx (c : Sha256Ctx) (data : List Nat) : Sha256Ctx :=
  let p := processBlocks c.hs (c.buf ++ data)
  ⟨p.1, p.2, c.len + data.length⟩

/-- Big-endian bytes of a 32-bit word. -/
def wordBytes (w : Nat) : List Nat :=
  [w / 16777216 % 256, w / 65536 % 256, w / 256 % 256, w % 256]

/-- Lowercase hex digit. -/
def hexChar (n : Nat) : Char := Char.ofNat (if n < 10 then 48 + n else 87 + n)

/-- Lowercase hex string of a byte list. -/
def hexOfBytes (bs : List Nat) : String :=
  String.mk (bs.flatMap (fun b => [hexChar (b / 16), hexChar (b % 16)]))

/-- `hasher.hexdigest()`: pad the buffered tail (`0x80`, zeros, 64-bit
big-endian bit length of the whole message), compress, and render the
chaining state as 64 lowercase hex characters. -/
def hexdigest (c : Sha256Ctx) : String :=
  let zeros := (119 - c.buf.length % 64) % 64
  let lenBytes := (List.range 8).map (fun i => 8 * c.len / 2 ^ (8 * (7 - i)) % 256)
  let p := processBlocks c.hs (c.buf ++ 128 :: List.replicate zeros 0 ++ lenBytes)
  hexOfBytes
    (wordBytes p.1.a ++ wordBytes p.1.b ++ wordBytes p.1.c ++ wordBytes p.1.d ++
     wordBytes p.1.e ++ wordBytes p.1.f ++ wordBytes p.1.g ++ wordBytes p.1.h)

/-- `sha256(m).hexdigest()` in one shot. -/
def sha256hex (m : List Nat) : String := hexdigest (updateCtx sha256Start m)

/-! ## Validation and anchoring (`v1.py`) -/

/-- The bytes of the key `identity`. -/
def kIdentity : Bytes := ascii "identity"

/-- The bytes of the key `confirmation_status`. -/
def kStatus : Bytes := ascii "confirmation_status"

/-- `V1_FIELDS`: the 14 required field names, in the order of the source
literal.  The Python value is a `set`; the list order here only fixes how
the model enumerates it. -/
def V1_FIELDS : List Bytes :=
  [kIdentity, ascii "asset_identity", ascii "event_attributes",
   ascii "asset_attributes", ascii "operation", ascii "behaviour",
   ascii "timestamp_declared", ascii "timestamp_accepted",
   ascii "timestamp_committed", ascii "principal_accepted",
   ascii "principal_declared", kStatus, ascii "from",
   ascii "tenant_identity"]

/-- An exception escaping the anchor computation. -/
inductive SHError where
  /-- `SimpleHashFieldMissing`, carrying the formatted identity value and
  the set of missing field names. -/
  | fieldMissing (identity : BVal) (missing : List Bytes)
  /-- `SimpleHashPendingEventFound`, carrying the identity and the actual
  confirmation status. -/
  | pendingEventFound (identity : BVal) (status : BVal)
  /-- `SimpleHashFieldError` (`"No events found"` in `list_events`). -/
  | fieldError
  /-- Python `KeyError` on a dict subscript, carrying the absent key. -/
  | keyError (key : Bytes)
  /-- `bencodepy.BencodeEncodeError` on an unsupported value type. -/
  | encodeError
deriving DecidableEq

deriving instance DecidableEq for Except

/-- `V1_FIELDS.difference(event)`: required field names with no binding in
the event, enumerated in `V1_FIELDS` order. -/
def missingOf (e : RawEvent) : List Bytes :=
  V1_FIELDS.filter (fun k => (List.lookup k e).isNone)

/-- `__check_event`: raise `SimpleHashFieldMissing` when required fields
are missing, else `SimpleHashPendingEventFound` when `confirmation_status`
is not `FAILED`/`CONFIRMED`.  Both messages interpolate
`event['identity']` (and the second also `event['confirmation_status']`)
before raising, so an absent key surfaces as a Python `KeyError` instead. -/
def check_event (e : RawEvent) : Except SHError Unit :=
  let missing := missingOf e
  if missing = [] then
    match List.lookup kStatus e with
    | none => Except.error (SHError.keyError kStatus)
    | some st =>
      if st = BVal.str (ascii "FAILED") ∨ st = BVal.str (ascii "CONFIRMED") then
        Except.ok ()
      else
        match List.lookup kIdentity e with
        | none => Except.error (SHError.keyError kIdentity)
        | some id => Except.error (SHError.pendingEventFound id st)
  else
    match List.lookup kIdentity e with
    | none => Except.error (SHError.keyError kIdentity)
    | some id => Except.error (SHError.fieldMissing id missing)

/-- The comprehension `{k: event[k] for k in V1_FIELDS}` over a key list:
each subscript raises `KeyError` on an absent key. -/
def redactGo (e : RawEvent) : List Bytes → Except SHError RawEvent
  | [] => Except.ok []
  | k :: ks =>
    match List.lookup k e with
    | none => Except.error (SHError.keyError k)
    | some v =>
      match redactGo e ks with
      | Except.error err => Except.error err
      | Except.ok rest => Except.ok ((k, v) :: rest)

/-- `redact_event`: the event projected onto exactly the 14 required
fields. -/
def redact_event (e : RawEvent) : Except SHError RawEvent :=
  redactGo e V1_FIELDS

/-- The canonical bytes one event contributes to the hash: the bencoding
of its redacted projection, when everything succeeds. -/
def eventChunk (e : RawEvent) : Option Bytes :=
  match redact_event e with
  | Except.error _ => none
  | Except.ok red => binary_encode red

/-- The loop body of `anchor_events` over the events the source yields:
check, redact, bencode, and fold each event's bytes into the running
SHA-256 context; at the end of the stream, the hex digest. -/
def anchorGo (ctx : Sha256Ctx) : List RawEvent → Except SHError String
  | [] => Except.ok (hexdigest ctx)
  | e :: rest =>
    match check_event e with
    | Except.error err => Except.error err
    | Except.ok _ =>
      match redact_event e with
      | Except.error err => Except.error err
      | Except.ok red =>
        match binary_encode red with
        | none => Except.error SHError.encodeError
        | some bs => anchorGo (updateCtx ctx bs) rest

/-- `anchor_events`, over the sequence of events the source yields:
canonicalize then hash, starting from a fresh `sha256()` context. -/
def anchor_events (evs : List RawEvent) : Except SHError String :=
  anchorGo sha256Start evs

/-! ## `list_events` pagination (modelled at the HTTP boundary)

The GET transport is abstracted as a function from the query parameters
sent to the decoded JSON body that comes back; everything else follows the
source's loop. -/

/-- A query-parameter value: string or integer (`page_size` is `10`). -/
inductive PVal where
  | s (v : String)
  | n (v : Nat)
deriving DecidableEq

/-- The query parameters of one GET request. -/
abbrev QueryParams := List (String × PVal)

/-- The decoded JSON body of one page response: the `events` list when the
key is present, and `data.get("next_page_token")`. -/
structure PageResp where
  events : Option (List RawEvent)
  nextPageToken : Option String
deriving DecidableEq

/-- The params dict of the first request in `list_events`. -/
def firstPageParams (start_time end_time : String) : QueryParams :=
  [("proof_mechanism", PVal.s "SIMPLE_HASH"),
   ("timestamp_accepted_since", PVal.s start_time),
   ("timestamp_accepted_before", PVal.s end_time),
   ("page_size", PVal.n 10),
   ("order_by", PVal.s "SIMPLEHASHV1")]

/-- `params = {"page_token": page_token}`. -/
def tokenParams (t : String) : QueryParams := [("page_token", PVal.s t)]

/-- The `while True` loop of `list_events`, driven by `fuel` observed
iterations: returns the query parameters of every request made and the
concatenated events (or the error), missing-`events` bodies raising
`SimpleHashFieldError`, and a missing or empty (falsy) continuation token
ending the iteration. -/
def listEventsGo (server : QueryParams → PageResp) :
    Nat → QueryParams → List QueryParams × Except SHError (List RawEvent)
  | 0, _ => ([], Except.ok [])
  | fuel + 1, params =>
    let data := server params
    match data.events with
    | none => ([params], Except.error SHError.fieldError)
    | some evs =>
      match data.nextPageToken with
      | none => ([params], Except.ok evs)
      | some t =>
        if t = "" then ([params], Except.ok evs)
        else
          let r := listEventsGo server fuel (tokenParams t)
          (params :: r.1, r.2.map (fun more => evs ++ more))

/-- `list_events`: run the pagination loop from the initial
parameter dict for the window. -/
def list_events (server : QueryParams → PageResp) (fuel : Nat)
    (start_time end_time : String) :
    List QueryParams × Except SHError (List RawEvent) :=
  listEventsGo server fuel (firstPageParams start_time end_time)

/-! ## Concrete events for the closed statements -/

/-- A minimal valid event: every required field bound, status `CONFIRMED`,
`tenant_identity` carrying a distinguishing integer. -/
def baseEvent (tenant : Int) : RawEvent :=
  V1_FIELDS.map (fun k =>
    (k, if k = kStatus then BVal.str (ascii "CONFIRMED")
        else if k = ascii "tenant_identity" then BVal.int tenant
        else BVal.int 0))

/-- A valid event. -/
def evA : RawEvent := baseEvent 0

/-- A valid event differing from `evA` in the required field
`tenant_identity`. -/
def evB : RawEvent := baseEvent 1

/-- `evA` with one extra, unanchored field appended: a different mapping
with the same projection onto the required fields. -/
def evAx : RawEvent := evA ++ [(ascii "zzz", BVal.int 7)]

/-- A full event whose status is the non-terminal `PENDING`. -/
def evPend : RawEvent :=
  V1_FIELDS.map (fun k =>
    (k, if k = kStatus then BVal.str (ascii "PENDING") else BVal.int 0))

/-- A valid-looking event with `timestamp_committed` removed. -/
def evNoTc : RawEvent :=
  (baseEvent 0).filter (fun p => p.1 ≠ ascii "timestamp_committed")

/-- An event carrying only a (pending) `confirmation_status`: missing
almost every required field, `identity` included. -/
def evPendOnly : RawEvent := [(kStatus, BVal.str (ascii "PENDING"))]

/-- `evA` with its bindings in reverse order and an extra float-valued,
unanchored field: the same mapping on every required field. -/
def evARev : RawEvent := evA.reverse ++ [(ascii "extra", BVal.float)]

/-- A valid event whose required field `from` holds a float. -/
def evFloat : RawEvent :=
  V1_FIELDS.map (fun k =>
    (k, if k = kStatus then BVal.str (ascii "CONFIRMED")
        else if k = ascii "from" then BVal.float
        else BVal.int 0))

mutual

/-- Whether a value contains a float anywhere inside it. -/
def containsFloat : BVal → Bool
  | .float => true
  | .str _ => false
  | .int _ => false
  | .list xs => containsFloatL xs
  | .dict kvs => containsFloatD kvs

/-- Whether some element of a list value contains a float. -/
def containsFloatL : BList → Bool
  | .nil => false
  | .cons v t => containsFloat v || containsFloatL t

/-- Whether some value of a dict contains a float. -/
def containsFloatD : BDict → Bool
  | .nil => false
  | .cons _ v t => containsFloat v || containsFloatD t

end

/-- A demonstration event source: the initial query gets a page with a
continuation token, any other query a final page. -/
def demoServer : QueryParams → PageResp := fun ps =>
  if ps = firstPageParams "S" "E" then PageResp.mk (some []) (some "tok2")
  else PageResp.mk (some [evA]) none

/-! ## Sanity checks against external test vectors -/

example :
    sha256hex [] =
    "e3b0c44298fc1c149afbf4c8996fb92427ae41e4649b934ca495991b7852b855" := by rfl

example :
    sha256hex (ascii "abc") =
    "ba7816bf8f01cfea414140de5dae2223b00361a396177a9cb410ff61f20015ad" := by rfl

example : bencode (BVal.str (ascii "spam")) = some (ascii "4:spam") := by decide

example :
    binary_encode [(ascii "spam", BVal.str (ascii "eggs")),
      (ascii "cow", BVal.str (ascii "moo"))] =
    some (ascii "d3:cow3:moo4:spam4:eggse") := by decide

example : bencode (BVal.int (-42)) = some (ascii "i-42e") := by decide

example :
    bencode (BVal.list (BList.cons (BVal.int 3) (BList.cons BVal.float BList.nil))) =
    none := by decide

/-! ## Streaming SHA-256 laws -/

/-- `processGo` ignores the exact fuel once it covers the input length. -/
theorem processGo_fuel (f₁ : Nat) : ∀ (f₂ : Nat) (H : Hash8) (m : List Nat),
    m.length ≤ f₁ → m.length ≤ f₂ → processGo f₁ H m = processGo f₂ H m := by
  induction f₁ with
  | zero =>
    intro f₂ H m h₁ _
    have hm : m = [] := List.eq_nil_of_length_eq_zero (Nat.le_zero.mp h₁)
    subst hm
    cases f₂ <;> simp [processGo]
  | succ f₁ ih =>
    intro f₂ H m h₁ h₂
    cases f₂ with
    | zero =>
      have hm : m = [] := List.eq_nil_of_length_eq_zero (Nat.le_zero.mp h₂)
      subst hm
      simp [processGo]
    | succ f₂ =>
      simp only [processGo]
      by_cases h64 : 64 ≤ m.length
      · simp only [if_pos h64]
        apply ih <;> simp [List.length_drop] <;> omega
      · simp [if_neg h64]

/-- Processing `m ++ y` factors through processing `m` first: whatever
full blocks `m` yields are compressed, and the remainder is prepended to
`y`. -/
theorem processGo_append (f : Nat) : ∀ (H : Hash8) (m y : List Nat),
    m.length ≤ f →
    processGo (f + y.length) H (m ++ y) =
      processGo ((processGo f H m).2.length + y.length) (processGo f H m).1
        ((processGo f H m).2 ++ y) := by
  induction f with
  | zero =>
    intro H m y h
    have hm : m = [] := List.eq_nil_of_length_eq_zero (Nat.le_zero.mp h)
    subst hm
    simp [processGo]
  | succ f ih =>
    intro H m y h
    by_cases h64 : 64 ≤ m.length
    · have h64' : 64 ≤ (m ++ y).length := by
        simp only [List.length_append]; omega
      have hstep : processGo (f + 1) H m =
          processGo f (compress H (m.take 64)) (m.drop 64) := by
        simp [processGo, if_pos h64]
      rw [hstep, Nat.succ_add]
      simp only [processGo, if_pos h64',
        List.take_append_of_le_length h64, List.drop_append_of_le_length h64]
      exact ih (compress H (m.take 64)) (m.drop 64) y
        (by simp [List.length_drop]; omega)
    · have hstop : processGo (f + 1) H m = (H, m) := by
        simp [processGo, if_neg h64]
      rw [hstop]
      exact processGo_fuel (f + 1 + y.length) (m.length + y.length) H (m ++ y)
        (by simp [List.length_append]; omega) (by simp [List.length_append])

/-- Two successive `update` calls are one `update` of the concatenation:
the streaming context is oblivious to how the byte stream is chunked. -/
theorem updateCtx_append (c : Sha256Ctx) (a b : List Nat) :
    updateCtx (updateCtx c a) b = updateCtx c (a ++ b) := by
  have hkey := processGo_append (c.buf ++ a).length c.hs (c.buf ++ a) b le_rfl
  have h1 : (c.buf ++ a ++ b).length = (c.buf ++ a).length + b.length := by
    simp only [List.length_append]
  have h2 : ((processGo (c.buf ++ a).length c.hs (c.buf ++ a)).2 ++ b).length =
      (processGo (c.buf ++ a).length c.hs (c.buf ++ a)).2.length + b.length := by
    simp only [List.length_append]
  have main : processGo ((processGo (c.buf ++ a).length c.hs (c.buf ++ a)).2 ++ b).length
        (processGo (c.buf ++ a).length c.hs (c.buf ++ a)).1
        ((processGo (c.buf ++ a).length c.hs (c.buf ++ a)).2 ++ b) =
      processGo (c.buf ++ (a ++ b)).length c.hs (c.buf ++ (a ++ b)) := by
    rw [← List.append_assoc, h1, hkey, h2]
  simp only [updateCtx, processBlocks]
  rw [main]
  simp [List.length_append, Nat.add_assoc]

/-- Folding chunk updates into a context is one update of the flattened
stream. -/
theorem foldl_updateCtx (c : Sha256Ctx) (a : List Nat) :
    ∀ (chunks : List (List Nat)),
    chunks.foldl updateCtx (updateCtx c a) = updateCtx c (a ++ chunks.flatten) := by
  intro chunks
  induction chunks generalizing a with
  | nil => simp
  | cons x xs ih =>
    simp only [List.foldl_cons, List.flatten_cons]
    rw [updateCtx_append, ih, List.append_assoc]

/-! ## The anchor digest over valid streams -/

/-- Running the anchor loop from a context that has absorbed `acc` over
events that all validate and canonicalize appends their chunks, in order,
to the hashed stream. -/
theorem anchorGo_valid_append (f : RawEvent → List Nat) :
    ∀ (evs : List RawEvent) (acc : List Nat),
    (∀ e ∈ evs, check_event e = Except.ok () ∧ eventChunk e = some (f e)) →
    anchorGo (updateCtx sha256Start acc) evs =
      Except.ok (hexdigest (updateCtx sha256Start (acc ++ evs.flatMap f))) := by
  intro evs
  induction evs with
  | nil => intro acc _; simp [anchorGo, hexdigest]
  | cons e rest ih =>
    intro acc h
    obtain ⟨hc, hk⟩ := h e (List.mem_cons_self e rest)
    cases hr : redact_event e with
    | error err => simp [eventChunk, hr] at hk
    | ok red =>
      simp only [eventChunk, hr] at hk
      simp only [anchorGo, hc, hr, hk]
      rw [updateCtx_append, List.flatMap_cons, ← List.append_assoc]
      exact ih (acc ++ f e) (fun e' he' => h e' (List.mem_cons_of_mem _ he'))

/-- **C1**: over a finite stream of events that each validate (all 14
required fields, terminal status) and canonicalize to some byte chunk,
`anchor_events` returns the lowercase-hex SHA-256 digest of the in-order
concatenation of the per-event bencoded projections onto the required
fields — streaming the chunks through one hash context equals hashing
their concatenation. -/
theorem anchor_events_hashes_concatenation (evs : List RawEvent)
    (f : RawEvent → List Nat)
    (h : ∀ e ∈ evs, check_event e = Except.ok () ∧ eventChunk e = some (f e)) :
    anchor_events evs = Except.ok (sha256hex (evs.flatMap f)) := by
  have key := anchorGo_valid_append f evs [] h
  rw [List.nil_append] at key
  exact key

/-- Witness for C1 at a concrete one-event stream. -/
theorem anchor_events_hashes_concatenation_witness :
    (∀ e ∈ [evA], check_event e = Except.ok () ∧
        eventChunk e = some ((eventChunk evA).getD [])) ∧
    anchor_events [evA] =
      Except.ok (sha256hex ([evA].flatMap (fun _ => (eventChunk evA).getD []))) :=
  ⟨by decide,
    anchor_events_hashes_concatenation [evA] (fun _ => (eventChunk evA).getD [])
      (by decide)⟩

/-- **C2** counterexample: the digest of the empty stream is not the
63-character constant stated by the spec (which dropped the final hex
digit). -/
theorem anchor_events_empty_ne_spec_constant :
    anchor_events [] ≠
      Except.ok "e3b0c44298fc1c149afbf4c8996fb92427ae41e4649b934ca495991b7852b85" := by
  decide

/-- **C2** amended: on an empty event stream `anchor_events` succeeds and
returns the SHA-256 digest of the empty input, whose full 64-character
lowercase-hex value ends in `55`. -/
theorem anchor_events_empty_digest :
    anchor_events [] = Except.ok (sha256hex []) ∧
    sha256hex [] =
      "e3b0c44298fc1c149afbf4c8996fb92427ae41e4649b934ca495991b7852b855" := by
  exact ⟨by decide, by decide⟩

/-! ## Canonicalization depends only on the projection -/

/-- The projection comprehension only reads the lookups of the listed
keys. -/
theorem redactGo_congr (e1 e2 : RawEvent) : ∀ (ks : List Bytes),
    (∀ k ∈ ks, List.lookup k e1 = List.lookup k e2) →
    redactGo e1 ks = redactGo e2 ks := by
  intro ks
  induction ks with
  | nil => intro _; rfl
  | cons k ks ih =>
    intro h
    have hk := h k (List.mem_cons_self k ks)
    have hrest := ih (fun k' hk' => h k' (List.mem_cons_of_mem _ hk'))
    simp only [redactGo, hk, hrest]

/-- **C3**: for a validated event, the canonical bytes fed to the hasher
are identical for any two input mappings that agree on the 14 required
fields — regardless of key insertion order and of extra, unrelated keys
in either mapping. -/
theorem canonical_bytes_ignore_order_and_extras (e1 e2 : RawEvent)
    (_hok : check_event e1 = Except.ok ())
    (hagree : ∀ k ∈ V1_FIELDS, List.lookup k e1 = List.lookup k e2) :
    eventChunk e1 = eventChunk e2 := by
  have hred : redact_event e1 = redact_event e2 :=
    redactGo_congr e1 e2 V1_FIELDS hagree
  simp [eventChunk, hred]

/-- Witness for C3: `evA` reversed with an extra float field, against
`evA` extended by a different extra field. -/
theorem canonical_bytes_ignore_order_and_extras_witness :
    (check_event evARev = Except.ok () ∧
      ∀ k ∈ V1_FIELDS, List.lookup k evARev = List.lookup k evAx) ∧
    eventChunk evARev = eventChunk evAx :=
  ⟨⟨by decide, by decide⟩,
    canonical_bytes_ignore_order_and_extras evARev evAx (by decide) (by decide)⟩

/-! ## Abort on the first invalid event -/

/-- Once the loop reaches an event whose check raises, that error escapes
unchanged, whatever context has been accumulated and whatever events
would have followed: the failing event contributes no bytes and nothing
after it is consumed. -/
theorem anchorGo_error_on_bad (bad : RawEvent) (post : List RawEvent)
    (err : SHError) (hbad : check_event bad = Except.error err) :
    ∀ (pre : List RawEvent) (ctx : Sha256Ctx),
    (∀ e ∈ pre, check_event e = Except.ok () ∧ (eventChunk e).isSome) →
    anchorGo ctx (pre ++ bad :: post) = Except.error err := by
  intro pre
  induction pre with
  | nil => intro ctx _; simp [anchorGo, hbad]
  | cons e pre ih =>
    intro ctx h
    obtain ⟨hc, hk⟩ := h e (List.mem_cons_self e pre)
    cases hr : redact_event e with
    | error err2 => simp [eventChunk, hr] at hk
    | ok red =>
      cases hb : binary_encode red with
      | none => simp [eventChunk, hr, hb] at hk
      | some bs =>
        simp only [List.cons_append, anchorGo, hc, hr, hb]
        exact ih (updateCtx ctx bs) (fun e' he' => h e' (List.mem_cons_of_mem _ he'))

/-- **C4**: when some event of the stream fails validation, the whole
computation raises that event's validation error — for every possible
suffix after it — so no digest is returned, no bytes of the failing event
are fed to the accumulator, and no failing event is silently skipped. -/
theorem anchor_aborts_on_invalid_event (pre : List RawEvent) (bad : RawEvent)
    (post : List RawEvent) (err : SHError)
    (hpre : ∀ e ∈ pre, check_event e = Except.ok () ∧ (eventChunk e).isSome)
    (hbad : check_event bad = Except.error err) :
    anchor_events (pre ++ bad :: post) = Except.error err :=
  anchorGo_error_on_bad bad post err hbad pre sha256Start hpre

/-- Witness for C4: an event missing `timestamp_committed` aborts the
stream `[evA, evNoTc, evB]` with `FieldMissing` naming the field and the
identity. -/
theorem anchor_aborts_on_invalid_event_witness :
    ((∀ e ∈ [evA], check_event e = Except.ok () ∧ (eventChunk e).isSome) ∧
      check_event evNoTc =
        Except.error
          (SHError.fieldMissing (BVal.int 0) [ascii "timestamp_committed"])) ∧
    anchor_events ([evA] ++ evNoTc :: [evB]) =
      Except.error
        (SHError.fieldMissing (BVal.int 0) [ascii "timestamp_committed"]) :=
  ⟨⟨by decide, by decide⟩,
    anchor_aborts_on_invalid_event [evA] evNoTc [evB] _ (by decide) (by decide)⟩

/-! ## What the completeness check raises -/

/-- When required fields are missing, the completeness branch raises: with
`FieldMissing` carrying the identity and the full missing set when
`identity` is bound, and with Python's `KeyError` when `identity` is
itself among the missing fields (the error message interpolates
`event['identity']` before the raise). -/
theorem check_event_of_missing (e : RawEvent) (hm : missingOf e ≠ []) :
    check_event e =
      Except.error
        (match List.lookup kIdentity e with
         | none => SHError.keyError kIdentity
         | some id => SHError.fieldMissing id (missingOf e)) := by
  simp only [check_event]
  rw [if_neg hm]
  cases h : List.lookup kIdentity e <;> simp [h]

/-- **C5** counterexample: on the empty event — every required field
missing, `identity` included — validation raises `KeyError`, not the
`FieldMissing` error the claim promises for every missing-field event. -/
theorem check_event_empty_keyerror :
    check_event ([] : RawEvent) = Except.error (SHError.keyError kIdentity) ∧
    ¬ ∃ id missing, check_event ([] : RawEvent) =
        Except.error (SHError.fieldMissing id missing) := by
  refine ⟨by decide, ?_⟩
  rintro ⟨id, missing, h⟩
  rw [(by decide :
    check_event ([] : RawEvent) = Except.error (SHError.keyError kIdentity))] at h
  simp at h

/-- **C5** amended: an event missing required fields fails with
`FieldMissing` reporting its `identity` value and the full set of missing
field names whenever `identity` is present; when `identity` is itself
missing the failure is a `KeyError` on `identity` instead. -/
theorem check_event_reports_missing_fields (e : RawEvent)
    (hm : missingOf e ≠ []) :
    check_event e =
      Except.error
        (match List.lookup kIdentity e with
         | none => SHError.keyError kIdentity
         | some id => SHError.fieldMissing id (missingOf e)) :=
  check_event_of_missing e hm

/-- Witness for C5 at an event missing only `timestamp_committed`. -/
theorem check_event_reports_missing_fields_witness :
    (missingOf evNoTc ≠ []) ∧
    check_event evNoTc =
      Except.error
        (match List.lookup kIdentity evNoTc with
         | none => SHError.keyError kIdentity
         | some id => SHError.fieldMissing id (missingOf evNoTc)) :=
  ⟨by decide, check_event_reports_missing_fields evNoTc (by decide)⟩

/-- **C6** counterexample: an event that is simultaneously incomplete and
pending but lacks `identity` reports `KeyError`, not the `FieldMissing`
error the claim promises. -/
theorem check_event_pending_missing_keyerror :
    check_event evPendOnly = Except.error (SHError.keyError kIdentity) ∧
    ¬ ∃ id missing, check_event evPendOnly =
        Except.error (SHError.fieldMissing id missing) := by
  refine ⟨by decide, ?_⟩
  rintro ⟨id, missing, h⟩
  rw [(by decide :
    check_event evPendOnly = Except.error (SHError.keyError kIdentity))] at h
  simp at h

/-- **C6** amended: the completeness check always runs before the status
check, so a simultaneously incomplete-and-pending event never reports the
non-terminal-status error; it reports `FieldMissing` when `identity` is
present (and `KeyError` on `identity` otherwise). -/
theorem missing_fields_checked_before_status (e : RawEvent) (st : BVal)
    (hm : missingOf e ≠ []) (_hst : List.lookup kStatus e = some st)
    (_hnt : st ≠ BVal.str (ascii "FAILED") ∧ st ≠ BVal.str (ascii "CONFIRMED")) :
    (∀ id s, check_event e ≠ Except.error (SHError.pendingEventFound id s)) ∧
    ∀ id, List.lookup kIdentity e = some id →
      check_event e = Except.error (SHError.fieldMissing id (missingOf e)) := by
  have key := check_event_of_missing e hm
  constructor
  · intro id s hcontra
    rw [key] at hcontra
    cases h : List.lookup kIdentity e <;> rw [h] at hcontra <;> simp at hcontra
  · intro id hid
    rw [key, hid]

/-- Witness for C6: incomplete and pending, with `identity` present. -/
theorem missing_fields_checked_before_status_witness :
    (missingOf [(kStatus, BVal.str (ascii "PENDING")), (kIdentity, BVal.int 5)] ≠ [] ∧
      List.lookup kStatus [(kStatus, BVal.str (ascii "PENDING")), (kIdentity, BVal.int 5)] =
        some (BVal.str (ascii "PENDING")) ∧
      (BVal.str (ascii "PENDING") ≠ BVal.str (ascii "FAILED") ∧
        BVal.str (ascii "PENDING") ≠ BVal.str (ascii "CONFIRMED"))) ∧
    ((∀ id s, check_event [(kStatus, BVal.str (ascii "PENDING")), (kIdentity, BVal.int 5)] ≠
        Except.error (SHError.pendingEventFound id s)) ∧
      ∀ id, List.lookup kIdentity
          [(kStatus, BVal.str (ascii "PENDING")), (kIdentity, BVal.int 5)] = some id →
        check_event [(kStatus, BVal.str (ascii "PENDING")), (kIdentity, BVal.int 5)] =
          Except.error (SHError.fieldMissing id
            (missingOf [(kStatus, BVal.str (ascii "PENDING")), (kIdentity, BVal.int 5)]))) :=
  ⟨⟨by decide, by decide, by decide⟩,
    missing_fields_checked_before_status
      [(kStatus, BVal.str (ascii "PENDING")), (kIdentity, BVal.int 5)]
      (BVal.str (ascii "PENDING")) (by decide) (by decide) (by decide)⟩

/-! ## The status check on complete events -/

/-- On a complete event every required field, `confirmation_status` and
`identity` included, has a bound value. -/
theorem lookup_some_of_missing_nil (e : RawEvent) (hm : missingOf e = [])
    (k : Bytes) (hk : k ∈ V1_FIELDS) : (List.lookup k e).isSome := by
  have hnot := List.filter_eq_nil_iff.mp hm k hk
  cases h : List.lookup k e with
  | none => rw [h] at hnot; simp at hnot
  | some v => simp

/-- **C7**: an event with all 14 required fields passes validation exactly
when its `confirmation_status` value is the string `CONFIRMED` or the
string `FAILED`, and raises the non-terminal-status error exactly
otherwise. -/
theorem status_error_iff_not_terminal (e : RawEvent) (hm : missingOf e = []) :
    (check_event e = Except.ok () ↔
      (List.lookup kStatus e = some (BVal.str (ascii "CONFIRMED")) ∨
       List.lookup kStatus e = some (BVal.str (ascii "FAILED")))) ∧
    ((∃ id st, check_event e = Except.error (SHError.pendingEventFound id st)) ↔
      ¬(List.lookup kStatus e = some (BVal.str (ascii "CONFIRMED")) ∨
        List.lookup kStatus e = some (BVal.str (ascii "FAILED")))) := by
  obtain ⟨st, hst⟩ := Option.isSome_iff_exists.mp
    (lookup_some_of_missing_nil e hm kStatus (by decide))
  obtain ⟨id, hid⟩ := Option.isSome_iff_exists.mp
    (lookup_some_of_missing_nil e hm kIdentity (by decide))
  have hck : check_event e =
      if st = BVal.str (ascii "FAILED") ∨ st = BVal.str (ascii "CONFIRMED")
      then Except.ok ()
      else Except.error (SHError.pendingEventFound id st) := by
    simp only [check_event, hm, hst, hid]
    simp
  by_cases hterm : st = BVal.str (ascii "FAILED") ∨ st = BVal.str (ascii "CONFIRMED")
  · rw [if_pos hterm] at hck
    have hor : List.lookup kStatus e = some (BVal.str (ascii "CONFIRMED")) ∨
        List.lookup kStatus e = some (BVal.str (ascii "FAILED")) := by
      cases hterm with
      | inl hF => right; rw [hst, hF]
      | inr hC => left; rw [hst, hC]
    refine ⟨⟨fun _ => hor, fun _ => hck⟩, ⟨?_, fun hcontra => absurd hor hcontra⟩⟩
    rintro ⟨id', st', hcontra⟩
    rw [hck] at hcontra
    simp at hcontra
  · rw [if_neg hterm] at hck
    have hnot : ¬(List.lookup kStatus e = some (BVal.str (ascii "CONFIRMED")) ∨
        List.lookup kStatus e = some (BVal.str (ascii "FAILED"))) := by
      rintro (h | h)
      · rw [hst] at h; injection h with h'; exact hterm (Or.inr h')
      · rw [hst] at h; injection h with h'; exact hterm (Or.inl h')
    refine ⟨⟨fun hok => ?_, fun hcontra => absurd hcontra hnot⟩,
      ⟨fun _ => hnot, fun _ => ⟨id, st, hck⟩⟩⟩
    rw [hck] at hok
    simp at hok

/-- Witness for C7 at a complete event with `PENDING` status. -/
theorem status_error_iff_not_terminal_witness :
    (missingOf evPend = []) ∧
    ((check_event evPend = Except.ok () ↔
      (List.lookup kStatus evPend = some (BVal.str (ascii "CONFIRMED")) ∨
       List.lookup kStatus evPend = some (BVal.str (ascii "FAILED")))) ∧
    ((∃ id st, check_event evPend = Except.error (SHError.pendingEventFound id st)) ↔
      ¬(List.lookup kStatus evPend = some (BVal.str (ascii "CONFIRMED")) ∨
        List.lookup kStatus evPend = some (BVal.str (ascii "FAILED"))))) :=
  ⟨by decide, status_error_iff_not_terminal evPend (by decide)⟩

/-! ## Order sensitivity of the accumulator -/

/-- **C8** counterexample: two distinct valid events — `evAx` is `evA`
plus one extra, redacted-away field — whose two orderings produce the
same digest, because both events contribute identical canonical bytes. -/
theorem anchor_order_insensitive_same_projection :
    evA ≠ evAx ∧ check_event evA = Except.ok () ∧
    check_event evAx = Except.ok () ∧
    anchor_events [evA, evAx] = anchor_events [evAx, evA] := by
  exact ⟨by decide, by decide, by decide, by decide⟩

/-- **C8** amended: swapping two valid events changes the digest when
their canonical encodings differ — as for `evA` and `evB`, which differ
in the required field `tenant_identity` — but not for every distinct
pair: events agreeing on all 14 required fields hash identically in
either order. -/
theorem anchor_order_sensitive_distinct_bytes :
    evA ≠ evB ∧ check_event evA = Except.ok () ∧
    check_event evB = Except.ok () ∧ eventChunk evA ≠ eventChunk evB ∧
    anchor_events [evA, evB] ≠ anchor_events [evB, evA] := by
  exact ⟨by decide, by decide, by decide, by decide, by decide⟩

/-! ## Floats make the encoder fail loudly -/

mutual

/-- A value containing a float somewhere fails to bencode. -/
theorem bencode_none_of_containsFloat :
    ∀ (v : BVal), containsFloat v = true → bencode v = none
  | BVal.float, _ => rfl
  | BVal.str s, h => by simp [containsFloat] at h
  | BVal.int n, h => by simp [containsFloat] at h
  | BVal.list xs, h => by
    have hx : containsFloatL xs = true := by simpa [containsFloat] using h
    simp [bencode, bencodeL_none_of_containsFloat xs hx]
  | BVal.dict kvs, h => by
    have hx : containsFloatD kvs = true := by simpa [containsFloat] using h
    simp [bencode, bencodeD_none_of_containsFloat kvs hx]

/-- A list with a float somewhere fails to bencode. -/
theorem bencodeL_none_of_containsFloat :
    ∀ (xs : BList), containsFloatL xs = true → bencodeL xs = none
  | BList.nil, h => by simp [containsFloatL] at h
  | BList.cons v t, h => by
    rcases Bool.or_eq_true_iff.mp (by simpa [containsFloatL] using h) with hv | ht
    · simp [bencodeL, bencode_none_of_containsFloat v hv]
    · have hrest := bencodeL_none_of_containsFloat t ht
      cases hb : bencode v <;> simp [bencodeL, hb, hrest]

/-- A dict with a float in some value fails to bencode. -/
theorem bencodeD_none_of_containsFloat :
    ∀ (kvs : BDict), containsFloatD kvs = true → bencodeD kvs = none
  | BDict.nil, h => by simp [containsFloatD] at h
  | BDict.cons k v t, h => by
    rcases Bool.or_eq_true_iff.mp (by simpa [containsFloatD] using h) with hv | ht
    · simp [bencodeD, bencode_none_of_containsFloat v hv]
    · have hrest := bencodeD_none_of_containsFloat t ht
      cases hb : bencode v <;> simp [bencodeD, hb, hrest]

end

/-- A dict containing one unencodable value fails to encode as a whole. -/
theorem binary_encode_none_of_mem (k : Bytes) (v : BVal)
    (hv : bencode v = none) :
    ∀ (red : RawEvent), (k, v) ∈ red → binary_encode red = none := by
  have hD : ∀ (red : RawEvent), (k, v) ∈ red → bencodeD (toBDict red) = none := by
    intro red
    induction red with
    | nil => intro hmem; cases hmem
    | cons p ps ih =>
      intro hmem
      cases hmem with
      | head => simp [toBDict, bencodeD, hv]
      | tail _ hmem' =>
        have ht := ih hmem'
        cases hb : bencode p.2 <;> simp [toBDict, bencodeD, hb, ht]
  intro red hmem
  simp [binary_encode, bencode, hD red hmem]

/-- An event that passes validation is missing no required field. -/
theorem missing_nil_of_check_ok (e : RawEvent)
    (hok : check_event e = Except.ok ()) : missingOf e = [] := by
  by_contra hm
  rw [check_event_of_missing e hm] at hok
  simp at hok

/-- When every listed key is bound, the projection comprehension succeeds
and contains each key's binding. -/
theorem redactGo_ok (e : RawEvent) : ∀ (ks : List Bytes),
    (∀ k ∈ ks, (List.lookup k e).isSome) →
    ∃ red, redactGo e ks = Except.ok red ∧
      ∀ k v, k ∈ ks → List.lookup k e = some v → (k, v) ∈ red := by
  intro ks
  induction ks with
  | nil =>
    intro _
    exact ⟨[], rfl, fun k v hk _ => absurd hk (List.not_mem_nil k)⟩
  | cons k0 ks ih =>
    intro h
    obtain ⟨v0, hv0⟩ := Option.isSome_iff_exists.mp
      (h k0 (List.mem_cons_self k0 ks))
    obtain ⟨red, hred, hmem⟩ := ih (fun k hk => h k (List.mem_cons_of_mem _ hk))
    refine ⟨(k0, v0) :: red, by simp [redactGo, hv0, hred], ?_⟩
    intro k v hkin hkv
    cases hkin with
    | head =>
      rw [hv0] at hkv
      injection hkv with h'
      subst h'
      exact List.mem_cons_self _ _
    | tail _ htl => exact List.mem_cons_of_mem _ (hmem k v htl hkv)

/-- A validated event whose canonical chunk does not exist can never be
part of a stream on which the anchor loop returns a digest. -/
theorem anchorGo_no_ok_of_bad_chunk (e : RawEvent)
    (hok : check_event e = Except.ok ()) (hchunk : eventChunk e = none) :
    ∀ (evs : List RawEvent) (ctx : Sha256Ctx), e ∈ evs →
    ∀ d, anchorGo ctx evs ≠ Except.ok d := by
  intro evs
  induction evs with
  | nil => intro ctx h; cases h
  | cons a as ih =>
    intro ctx hmem d hcontra
    by_cases hae : a = e
    · subst hae
      cases hr : redact_event a with
      | error err => simp [anchorGo, hok, hr] at hcontra
      | ok red =>
        have hb : binary_encode red = none := by
          simpa [eventChunk, hr] using hchunk
        simp [anchorGo, hok, hr, hb] at hcontra
    · cases hmem with
      | head => exact absurd rfl hae
      | tail _ htl =>
        cases hca : check_event a with
        | error err => simp [anchorGo, hca] at hcontra
        | ok u =>
          cases u
          cases hra : redact_event a with
          | error err => simp [anchorGo, hca, hra] at hcontra
          | ok red =>
            cases hba : binary_encode red with
            | none => simp [anchorGo, hca, hra, hba] at hcontra
            | some bs =>
              simp only [anchorGo, hca, hra, hba] at hcontra
              exact ih (updateCtx ctx bs) htl d hcontra

/-- **C9**: a validated event carrying a float inside one of its 14
required fields makes the encoding step refuse the value: anchoring the
singleton stream fails with the encode error, and no stream containing
the event ever yields a digest — the number is never silently
approximated. -/
theorem anchor_rejects_float_values (e : RawEvent) (k : Bytes) (v : BVal)
    (hk : k ∈ V1_FIELDS) (hv : List.lookup k e = some v)
    (hf : containsFloat v = true) (hok : check_event e = Except.ok ()) :
    anchor_events [e] = Except.error SHError.encodeError ∧
    ∀ (evs : List RawEvent), e ∈ evs →
      ∀ d, anchor_events evs ≠ Except.ok d := by
  have hm := missing_nil_of_check_ok e hok
  obtain ⟨red, hred, hmem⟩ :=
    redactGo_ok e V1_FIELDS (fun k' hk' => lookup_some_of_missing_nil e hm k' hk')
  have henc : binary_encode red = none :=
    binary_encode_none_of_mem k v (bencode_none_of_containsFloat v hf) red
      (hmem k v hk hv)
  have hchunk : eventChunk e = none := by
    simp [eventChunk, redact_event] at hred ⊢
    simp [hred, henc]
  constructor
  · simp [anchor_events, anchorGo, hok, eventChunk, redact_event, hred, henc]
  · intro evs hmem' d
    exact anchorGo_no_ok_of_bad_chunk e hok hchunk evs sha256Start hmem' d

/-- Witness for C9: a valid event whose `from` field holds a float. -/
theorem anchor_rejects_float_values_witness :
    (ascii "from" ∈ V1_FIELDS ∧
      List.lookup (ascii "from") evFloat = some BVal.float ∧
      containsFloat BVal.float = true ∧
      check_event evFloat = Except.ok ()) ∧
    (anchor_events [evFloat] = Except.error SHError.encodeError ∧
      ∀ evs, evFloat ∈ evs → ∀ d, anchor_events evs ≠ Except.ok d) :=
  ⟨⟨by decide, by decide, by decide, by decide⟩,
    anchor_rejects_float_values evFloat (ascii "from") BVal.float
      (by decide) (by decide) (by decide) (by decide)⟩

/-! ## Pagination parameters after the first page -/

/-- Every request issued from a token-only parameter dict, and every
request of the iterations after it, is again token-only. -/
theorem listEventsGo_token_requests (server : QueryParams → PageResp) :
    ∀ (fuel : Nat) (t : String) (p : QueryParams),
    p ∈ (listEventsGo server fuel (tokenParams t)).1 →
    ∃ t', p = tokenParams t' := by
  intro fuel
  induction fuel with
  | zero => intro t p hp; simp [listEventsGo] at hp
  | succ fuel ih =>
    intro t p hp
    cases he : (server (tokenParams t)).events with
    | none =>
      simp only [listEventsGo, he] at hp
      simp at hp
      exact ⟨t, hp⟩
    | some evs =>
      cases hn : (server (tokenParams t)).nextPageToken with
      | none =>
        simp only [listEventsGo, he, hn] at hp
        simp at hp
        exact ⟨t, hp⟩
      | some t2 =>
        by_cases ht2 : t2 = ""
        · simp only [listEventsGo, he, hn, if_pos ht2] at hp
          simp at hp
          exact ⟨t, hp⟩
        · simp only [listEventsGo, he, hn, if_neg ht2] at hp
          cases hp with
          | head => exact ⟨t, rfl⟩
          | tail _ htl => exact ih t2 p htl

/-- **C10**: in `list_events` every page request after the first carries
only the continuation token as its query parameters — the time-window
bounds, `proof_mechanism`, `order_by` and `page_size` are sent on the
first request only. -/
theorem list_events_later_pages_token_only (server : QueryParams → PageResp)
    (fuel : Nat) (start_time end_time : String) (p : QueryParams)
    (hp : p ∈ (list_events server fuel start_time end_time).1.tail) :
    ∃ t, p = tokenParams t := by
  cases fuel with
  | zero => simp [list_events, listEventsGo] at hp
  | succ fuel =>
    unfold list_events at hp
    cases he : (server (firstPageParams start_time end_time)).events with
    | none =>
      simp only [listEventsGo, he] at hp
      simp at hp
    | some evs =>
      cases hn : (server (firstPageParams start_time end_time)).nextPageToken with
      | none =>
        simp only [listEventsGo, he, hn] at hp
        simp at hp
      | some t2 =>
        by_cases ht2 : t2 = ""
        · simp only [listEventsGo, he, hn, if_pos ht2] at hp
          simp at hp
        · simp only [listEventsGo, he, hn, if_neg ht2, List.tail_cons] at hp
          exact listEventsGo_token_requests server fuel t2 p hp

/-- Witness for C10: a two-page run against the demonstration source. -/
theorem list_events_later_pages_token_only_witness :
    (tokenParams "tok2" ∈ (list_events demoServer 3 "S" "E").1.tail) ∧
    ∃ t, tokenParams "tok2" = tokenParams t :=
  ⟨by decide,
    list_events_later_pages_token_only demoServer 3 "S" "E"
      (tokenParams "tok2") (by decide)⟩

end SimpleHash
